import Mathlib

set_option maxRecDepth 10000

/-!
Shallow embedding of the WebChat hub (src/WebChat.go): the Hub event loop
(register / unregister / broadcast over the client registry), the per-client
bounded send mailbox, the readPump inbound loop (512-byte read limit, pong
deadline reset), the writePump outbound loop (coalescing with "\n", 54s ping
ticker, deferred connection close), and the serveHome static-page handler.
-/

namespace WebChat

/-- Clients are opaque handles (`*Client` pointers in the source); modelled as
naturals. -/
abbrev ClientId := Nat

/-- A payload is an opaque byte sequence (`[]byte`). -/
abbrev Payload := List Nat

/-- State of one client's `send` channel: the buffered payloads (FIFO) and
whether the channel has been closed (`close(client.send)`). -/
structure MState where
  queue : List Payload
  closed : Bool
deriving DecidableEq, Repr

/-- Capacity of each client's mailbox: `send: make(chan []byte, 256)` in
`serveWs`. -/
def mailboxCap : Nat := 256

/-- The mailbox a freshly accepted client is created with in `serveWs`:
empty buffer, channel open. -/
def newClientMbox : MState := { queue := [], closed := false }

/-- Hub state: the active set `h.clients` (map keys, so no duplicates) plus
the state of every client's `send` channel. -/
structure HubState where
  active : List ClientId
  mbox : ClientId → MState

/-- Pointwise update of the mailbox table. -/
def updateMbox (f : ClientId → MState) (c : ClientId) (v : MState) : ClientId → MState :=
  fun d => if d = c then v else f d

/-- One iteration of the fan-out loop body in `Hub.run`'s broadcast case:
`select { case client.send <- message: default: close(client.send); delete(h.clients, client) }`. -/
def bStep (m : Payload) (st : HubState) (c : ClientId) : HubState :=
  let mb := st.mbox c
  if mb.queue.length < mailboxCap then
    { st with mbox := updateMbox st.mbox c { mb with queue := mb.queue ++ [m] } }
  else
    { active := st.active.erase c,
      mbox := updateMbox st.mbox c { mb with closed := true } }

/-- Processing one `broadcast` event: `for client := range h.clients { ... }`,
iterating over the snapshot of the active set. -/
def broadcastStep (m : Payload) (s : HubState) : HubState :=
  s.active.foldl (bStep m) s

/-- Processing one `unregister` event:
`if _, ok := h.clients[client]; ok { delete(h.clients, client); close(client.send) }`. -/
def unregStep (c : ClientId) (s : HubState) : HubState :=
  if c ∈ s.active then
    { active := s.active.erase c,
      mbox := updateMbox s.mbox c { s.mbox c with closed := true } }
  else s

/-- Processing one `register` event: `h.clients[client] = true` (map insert;
a key already present stays present once). -/
def regStep (c : ClientId) (s : HubState) : HubState :=
  if c ∈ s.active then s else { s with active := s.active ++ [c] }

/-- The three event kinds serialized by `Hub.run`. -/
inductive HEvent where
  | register (c : ClientId)
  | unregister (c : ClientId)
  | broadcast (m : Payload)

/-- One iteration of `Hub.run`'s `select`. -/
def hubStep (s : HubState) : HEvent → HubState
  | .register c => regStep c s
  | .unregister c => unregStep c s
  | .broadcast m => broadcastStep m s

/-- Processing a sequence of broadcast events in order. -/
def runBroadcasts (ms : List Payload) (s : HubState) : HubState :=
  ms.foldl (fun st m => broadcastStep m st) s

/-- Whether processing event `e` in state `s` removes client `c` from the
active set (explicit unregister, or broadcast overflow teardown). -/
def removesClient (s : HubState) (e : HEvent) (c : ClientId) : Prop :=
  match e with
  | .register _ => False
  | .unregister d => c = d
  | .broadcast _ => mailboxCap ≤ (s.mbox c).queue.length

/-- Whether event `e` adds client `c` to the active set. -/
def addsClient (e : HEvent) (c : ClientId) : Prop :=
  e = .register c

/-! ### readPump: inbound loop -/

/-- `c.conn.SetReadLimit(512)` in `readPump`. -/
def maxMessageSize : Nat := 512

/-- The read loop of `readPump` over the sequence of inbound frames: each
frame within the read limit is forwarded verbatim to `h.broadcast`; a frame
exceeding the limit makes `ReadMessage` fail, breaking out of the loop
(nothing further is forwarded). -/
def readLoop : List Payload → List Payload
  | [] => []
  | m :: rest => if m.length ≤ maxMessageSize then m :: readLoop rest else []

/-- Outcome of `readPump`: the payloads forwarded to broadcast, and the two
deferred actions (`c.hub.unregister <- c; c.conn.Close()`) that run on every
exit of the loop. -/
structure ReadResult where
  broadcasts : List Payload
  unregistered : Bool
  connClosed : Bool
deriving DecidableEq, Repr

/-- `readPump` on a finite inbound trace: runs the read loop, then the
deferred unregister and connection close. -/
def readPump (msgs : List Payload) : ReadResult :=
  { broadcasts := readLoop msgs, unregistered := true, connClosed := true }

/-! ### writePump: outbound loop -/

/-- The byte written between coalesced payloads: `w.Write([]byte("\n"))`. -/
def msgSep : Nat := 10

/-- The single frame built by one delivery iteration of `writePump`:
`w.Write(message)` followed, for each of the payloads already queued, by
`w.Write([]byte("\n")); w.Write(<-c.send)`. -/
def coalesceFrame (m : Payload) (qs : List Payload) : Payload :=
  qs.foldl (fun acc q => acc ++ msgSep :: q) m

/-- Events observed by `writePump`'s `select`: a delivery from the mailbox
(with the payloads already buffered behind it, and whether the stream writes
succeed), the mailbox-closed signal (`ok == false`), or a ticker tick (with
whether the ping write succeeds). -/
inductive WriteEvent where
  | deliver (m : Payload) (queued : List Payload) (writeOk : Bool)
  | closedSignal
  | tick (pingOk : Bool)

/-- Result of running `writePump`'s loop: frames written to the stream,
whether a close frame was sent, and whether the loop returned (as opposed to
still blocking in `select` when the trace ends). -/
structure WriteResult where
  frames : List Payload
  sentClose : Bool
  exited : Bool
deriving DecidableEq, Repr

/-- The `for { select { ... } }` loop of `writePump` over a trace of events:
on a closed mailbox it writes a close frame and returns; on a delivery it
writes the coalesced frame, returning on write error; on a tick it writes a
ping, returning on ping error. -/
def writeLoop : List WriteEvent → WriteResult
  | [] => { frames := [], sentClose := false, exited := false }
  | .closedSignal :: _ => { frames := [], sentClose := true, exited := true }
  | .deliver m qs ok :: rest =>
    if ok then
      let r := writeLoop rest
      { r with frames := coalesceFrame m qs :: r.frames }
    else { frames := [], sentClose := false, exited := true }
  | .tick ok :: rest =>
    if ok then writeLoop rest
    else { frames := [], sentClose := false, exited := true }

/-- `writePump` outcome including its deferred cleanup
(`ticker.Stop(); c.conn.Close()`), which runs exactly when the loop returns. -/
structure PumpResult where
  frames : List Payload
  sentClose : Bool
  exited : Bool
  tickerStopped : Bool
  connClosed : Bool
deriving DecidableEq, Repr

/-- `writePump` on a finite event trace: the loop plus its deferred cleanup. -/
def writePump (es : List WriteEvent) : PumpResult :=
  let r := writeLoop es
  { frames := r.frames, sentClose := r.sentClose, exited := r.exited,
    tickerStopped := r.exited, connClosed := r.exited }

/-! ### Keepalive timing -/

/-- `time.NewTicker(54 * time.Second)` in `writePump`. -/
def pingPeriod : Nat := 54

/-- `60 * time.Second` read deadline window in `readPump`. -/
def pongWait : Nat := 60

/-- The pong handler: `c.conn.SetReadDeadline(time.Now().Add(60 * time.Second))`,
returning the new deadline given the receipt time. -/
def pongHandler (now : Nat) : Nat := now + pongWait

/-- The latest liveness signal at or before time `T` (connection start at
time 0 counts as the initial signal, since `readPump` also sets the deadline
on entry). -/
def lastLiveness (pongs : List Nat) (T : Nat) : Nat :=
  (pongs.filter (fun t => decide (t ≤ T))).foldl max 0

/-- The read deadline in force at time `T`, given the pong receipt times. -/
def readDeadlineAt (pongs : List Nat) (T : Nat) : Nat :=
  lastLiveness pongs T + pongWait

/-- Whether the read deadline has expired at time `T`. -/
def timedOut (pongs : List Nat) (T : Nat) : Bool :=
  decide (readDeadlineAt pongs T < T)

/-- The ticker's ping times for the first `n` ticks: `54, 108, ...`
(a peer that keeps answering produces a pong at each of these times). -/
def pingSchedule (n : Nat) : List Nat :=
  (List.range n).map (fun i => pingPeriod * (i + 1))

/-! ### serveHome: static page handler -/

/-- Responses of the `serveHome` handler. -/
inductive HomeResponse where
  | notFound
  | methodNotAllowed
  | page
deriving DecidableEq, Repr

/-- `serveHome`: rejects paths other than "/" with 404, then methods other
than GET with 405, then serves the HTML page. -/
def serveHome (path method : String) : HomeResponse :=
  if path ≠ "/" then .notFound
  else if method ≠ "GET" then .methodNotAllowed
  else .page

/-! ### Helper lemmas about the broadcast fan-out fold -/

/-- The effect of one fan-out iteration on the visited client's own mailbox. -/
def enqueueOne (m : Payload) (mb : MState) : MState :=
  if mb.queue.length < mailboxCap then { mb with queue := mb.queue ++ [m] }
  else { mb with closed := true }

theorem bStep_mbox_self (m : Payload) (st : HubState) (c : ClientId) :
    (bStep m st c).mbox c = enqueueOne m (st.mbox c) := by
  simp only [bStep, enqueueOne]
  split <;> simp [updateMbox]

theorem bStep_mbox_other {c d : ClientId} (hcd : c ≠ d) (m : Payload) (st : HubState) :
    (bStep m st d).mbox c = st.mbox c := by
  simp only [bStep]
  split <;> simp [updateMbox, hcd]

theorem bStep_active (m : Payload) (st : HubState) (d : ClientId) :
    (bStep m st d).active =
      if (st.mbox d).queue.length < mailboxCap then st.active else st.active.erase d := by
  simp only [bStep]
  split <;> rfl

theorem foldl_bStep_mbox_not_mem (m : Payload) (l : List ClientId) :
    ∀ (st : HubState) (c : ClientId), c ∉ l →
      (l.foldl (bStep m) st).mbox c = st.mbox c := by
  induction l with
  | nil => intro st c _; rfl
  | cons d rest ih =>
    intro st c h
    rw [List.mem_cons, not_or] at h
    rw [List.foldl_cons, ih (bStep m st d) c h.2, bStep_mbox_other h.1]

theorem foldl_bStep_mbox_mem (m : Payload) (l : List ClientId) :
    ∀ (st : HubState) (c : ClientId), l.Nodup → c ∈ l →
      (l.foldl (bStep m) st).mbox c = enqueueOne m (st.mbox c) := by
  induction l with
  | nil => intro st c _ h; cases h
  | cons d rest ih =>
    intro st c hnd hc
    obtain ⟨hdr, hrest⟩ := List.nodup_cons.mp hnd
    rw [List.foldl_cons]
    rcases List.mem_cons.mp hc with h | h
    · subst h
      rw [foldl_bStep_mbox_not_mem m rest _ c hdr, bStep_mbox_self]
    · have hcd : c ≠ d := by rintro rfl; exact hdr h
      rw [ih _ c hrest h, bStep_mbox_other hcd]

theorem foldl_bStep_active_nodup (m : Payload) (l : List ClientId) :
    ∀ st : HubState, st.active.Nodup → (l.foldl (bStep m) st).active.Nodup := by
  induction l with
  | nil => intro st h; exact h
  | cons d rest ih =>
    intro st h
    rw [List.foldl_cons]
    apply ih
    rw [bStep_active]
    split
    · exact h
    · exact h.erase d

theorem foldl_bStep_active_mem (m : Payload) (l : List ClientId) :
    ∀ (st : HubState) (c : ClientId), l.Nodup → st.active.Nodup →
      (c ∈ (l.foldl (bStep m) st).active ↔
        c ∈ st.active ∧ ¬(c ∈ l ∧ mailboxCap ≤ (st.mbox c).queue.length)) := by
  induction l with
  | nil => intro st c _ _; simp
  | cons d rest ih =>
    intro st c hnd hact
    obtain ⟨hdr, hrest⟩ := List.nodup_cons.mp hnd
    have hact' : (bStep m st d).active.Nodup := by
      rw [bStep_active]
      split
      · exact hact
      · exact hact.erase d
    rw [List.foldl_cons, ih (bStep m st d) c hrest hact']
    by_cases hcd : c = d
    · subst hcd
      by_cases hroom : (st.mbox c).queue.length < mailboxCap
      · rw [bStep_active, if_pos hroom, bStep_mbox_self]
        have h2 : ¬ mailboxCap ≤ (st.mbox c).queue.length := Nat.not_le.mpr hroom
        simp [hdr, h2]
      · rw [bStep_active, if_neg hroom, bStep_mbox_self]
        have h2 : mailboxCap ≤ (st.mbox c).queue.length := Nat.not_lt.mp hroom
        have hnm : c ∉ st.active.erase c := hact.not_mem_erase
        simp [hdr, h2, hnm]
    · have hmb : (bStep m st d).mbox c = st.mbox c := bStep_mbox_other hcd m st
      have hmem : c ∈ (bStep m st d).active ↔ c ∈ st.active := by
        rw [bStep_active]
        split
        · exact Iff.rfl
        · exact List.mem_erase_of_ne hcd
      rw [hmb, hmem]
      simp only [List.mem_cons, hcd, false_or]

/-- Unfolding of `runBroadcasts` on a cons. -/
theorem runBroadcasts_cons (m : Payload) (rest : List Payload) (s : HubState) :
    runBroadcasts (m :: rest) s = runBroadcasts rest (broadcastStep m s) := rfl

/-! ### Concrete hub states used as test inputs -/

/-- One active client whose mailbox is at capacity. -/
def sFull : HubState :=
  { active := [0], mbox := fun _ => { queue := List.replicate 256 [0], closed := false } }

/-- Two active clients with fresh (empty, open) mailboxes. -/
def sTwoClients : HubState :=
  { active := [0, 1], mbox := fun _ => newClientMbox }

/-- Two active clients: client 0 at capacity, client 1 fresh. -/
def sMixed : HubState :=
  { active := [0, 1],
    mbox := fun c =>
      if c = 0 then { queue := List.replicate 256 [0], closed := false } else newClientMbox }

/-- One active client with a fresh mailbox. -/
def sOne : HubState := { active := [0], mbox := fun _ => newClientMbox }

/-! ### Claim theorems -/

/-- C1, counterexample to the claim as stated: in a state where client 0 is in
the active set but its mailbox is at capacity, processing a broadcast of
payload `[1]` does not enqueue the payload even once into that client's
mailbox (the client is torn down instead), refuting "every client that is in
the Hub's active set at the moment the broadcast event is processed has P
enqueued into its Mailbox exactly once". -/
theorem broadcast_full_client_counterexample :
    0 ∈ sFull.active ∧ ((broadcastStep [1] sFull).mbox 0).queue.count [1] = 0 := by
  decide

/-- C1 (amended): for every broadcast sequence processed by the Hub and every
client in the active set whose mailbox stays below capacity throughout, each
payload is enqueued into that client's mailbox exactly once — appended at the
tail — so the per-client enqueue order matches the order in which the
broadcast events were processed, and the client (the originator included,
since broadcast carries no sender identity) stays in the active set. -/
theorem broadcast_fanout_order (s : HubState) (c : ClientId) (ms : List Payload)
    (hnd : s.active.Nodup) (hc : c ∈ s.active)
    (hcap : (s.mbox c).queue.length + ms.length ≤ mailboxCap) :
    ((runBroadcasts ms s).mbox c).queue = (s.mbox c).queue ++ ms ∧
      c ∈ (runBroadcasts ms s).active := by
  induction ms generalizing s with
  | nil => exact ⟨by simp [runBroadcasts], by simpa [runBroadcasts] using hc⟩
  | cons m rest ih =>
    have hlt : (s.mbox c).queue.length < mailboxCap := by
      simp only [List.length_cons] at hcap; omega
    have hmb : (broadcastStep m s).mbox c = enqueueOne m (s.mbox c) :=
      foldl_bStep_mbox_mem m s.active s c hnd hc
    have hq : ((broadcastStep m s).mbox c).queue = (s.mbox c).queue ++ [m] := by
      rw [hmb, enqueueOne, if_pos hlt]
    have hc' : c ∈ (broadcastStep m s).active :=
      (foldl_bStep_active_mem m s.active s c hnd hnd).mpr
        ⟨hc, by rintro ⟨_, hfull⟩; exact absurd hfull (Nat.not_le.mpr hlt)⟩
    have hnd' : (broadcastStep m s).active.Nodup := foldl_bStep_active_nodup m s.active s hnd
    have hcap' : ((broadcastStep m s).mbox c).queue.length + rest.length ≤ mailboxCap := by
      rw [hq]
      simp only [List.length_append, List.length_cons, List.length_nil] at hcap ⊢
      omega
    obtain ⟨h1, h2⟩ := ih (broadcastStep m s) hnd' hc' hcap'
    rw [runBroadcasts_cons]
    refine ⟨?_, h2⟩
    rw [h1, hq, List.append_assoc, List.singleton_append]

theorem broadcast_fanout_order_witness :
    ((runBroadcasts [[5], [6]] sTwoClients).mbox 0).queue =
        (sTwoClients.mbox 0).queue ++ [[5], [6]] ∧
      0 ∈ (runBroadcasts [[5], [6]] sTwoClients).active :=
  broadcast_fanout_order sTwoClients 0 [[5], [6]] (by decide) (by decide) (by decide)

/-- C2: during one broadcast step, a client whose mailbox is at capacity has
its mailbox closed (queue untouched) and is removed from the active set in
that same step, while any other active client with room still gets the
payload enqueued and stays active. -/
theorem broadcast_overflow_teardown (s : HubState) (c d : ClientId) (m : Payload)
    (hnd : s.active.Nodup) (hc : c ∈ s.active)
    (hfull : mailboxCap ≤ (s.mbox c).queue.length)
    (hd : d ∈ s.active) (_hdc : d ≠ c)
    (hdroom : (s.mbox d).queue.length < mailboxCap) :
    c ∉ (broadcastStep m s).active ∧
      ((broadcastStep m s).mbox c).closed = true ∧
      ((broadcastStep m s).mbox c).queue = (s.mbox c).queue ∧
      d ∈ (broadcastStep m s).active ∧
      ((broadcastStep m s).mbox d).queue = (s.mbox d).queue ++ [m] := by
  have hmbc : (broadcastStep m s).mbox c = enqueueOne m (s.mbox c) :=
    foldl_bStep_mbox_mem m s.active s c hnd hc
  have hmbd : (broadcastStep m s).mbox d = enqueueOne m (s.mbox d) :=
    foldl_bStep_mbox_mem m s.active s d hnd hd
  have hcact := foldl_bStep_active_mem m s.active s c hnd hnd
  have hdact := foldl_bStep_active_mem m s.active s d hnd hnd
  refine ⟨?_, ?_, ?_, ?_, ?_⟩
  · intro hmem
    exact ((hcact.mp hmem).2) ⟨hc, hfull⟩
  · rw [hmbc, enqueueOne, if_neg (Nat.not_lt.mpr hfull)]
  · rw [hmbc, enqueueOne, if_neg (Nat.not_lt.mpr hfull)]
  · exact hdact.mpr ⟨hd, by rintro ⟨_, hf⟩; exact absurd hf (Nat.not_le.mpr hdroom)⟩
  · rw [hmbd, enqueueOne, if_pos hdroom]

theorem broadcast_overflow_teardown_witness :
    0 ∉ (broadcastStep [9] sMixed).active ∧
      ((broadcastStep [9] sMixed).mbox 0).closed = true ∧
      ((broadcastStep [9] sMixed).mbox 0).queue = (sMixed.mbox 0).queue ∧
      1 ∈ (broadcastStep [9] sMixed).active ∧
      ((broadcastStep [9] sMixed).mbox 1).queue = (sMixed.mbox 1).queue ++ [[9]] :=
  broadcast_overflow_teardown sMixed 0 1 [9] (by decide) (by decide) (by decide)
    (by decide) (by decide) (by decide)

/-- C3: processing `unregister(c)` removes `c` from the active set and closes
its mailbox when `c` is present (leaving the queued payloads as they are),
is a no-op when `c` is absent (in particular after a broadcast-overflow
teardown already removed it), and is idempotent, so the registry entry is
removed and the mailbox closed at most once. -/
theorem unregister_idempotent_spec (s : HubState) (c : ClientId) (hnd : s.active.Nodup) :
    (c ∈ s.active → c ∉ (unregStep c s).active ∧ ((unregStep c s).mbox c).closed = true ∧
      ((unregStep c s).mbox c).queue = (s.mbox c).queue) ∧
    (c ∉ s.active → unregStep c s = s) ∧
    unregStep c (unregStep c s) = unregStep c s := by
  have habs : ∀ t : HubState, c ∉ t.active → unregStep c t = t := by
    intro t h
    simp only [unregStep, if_neg h]
  constructor
  · intro h
    simp only [unregStep, if_pos h]
    exact ⟨hnd.not_mem_erase, by simp [updateMbox], by simp [updateMbox]⟩
  refine ⟨habs s, ?_⟩
  by_cases h : c ∈ s.active
  · apply habs
    simp only [unregStep, if_pos h]
    exact hnd.not_mem_erase
  · rw [habs s h]
    exact habs s h

theorem unregister_idempotent_witness :
    0 ∉ (unregStep 0 sOne).active ∧ ((unregStep 0 sOne).mbox 0).closed = true ∧
      unregStep 0 (unregStep 0 sOne) = unregStep 0 sOne := by
  have h := unregister_idempotent_spec sOne 0 (by decide)
  exact ⟨(h.1 (by decide)).1, (h.1 (by decide)).2.1, h.2.2⟩

/-- C10: the mailbox bound is exactly 256 payloads — clients are created with
an empty mailbox governed by the capacity constant 256, and a broadcast tears
an active client down for overflow if and only if that client already has 256
undelivered payloads pending at the moment of the enqueue attempt. -/
theorem mailbox_capacity_spec (s : HubState) (c : ClientId) (m : Payload)
    (hnd : s.active.Nodup) (hc : c ∈ s.active)
    (hle : (s.mbox c).queue.length ≤ mailboxCap) :
    mailboxCap = 256 ∧ newClientMbox.queue = [] ∧
      (c ∉ (broadcastStep m s).active ↔ (s.mbox c).queue.length = 256) := by
  have hact := foldl_bStep_active_mem m s.active s c hnd hnd
  refine ⟨rfl, rfl, ?_, ?_⟩
  · intro hnot
    by_contra hne
    have hlt : (s.mbox c).queue.length < mailboxCap := Nat.lt_of_le_of_ne hle hne
    exact hnot (hact.mpr ⟨hc, by rintro ⟨_, hf⟩; exact absurd hf (Nat.not_le.mpr hlt)⟩)
  · intro heq hmem
    exact ((hact.mp hmem).2) ⟨hc, by simp [heq, mailboxCap]⟩

theorem mailbox_capacity_witness :
    mailboxCap = 256 ∧ newClientMbox.queue = [] ∧
      (0 ∉ (broadcastStep [9] sMixed).active ↔ (sMixed.mbox 0).queue.length = 256) :=
  mailbox_capacity_spec sMixed 0 [9] (by decide) (by decide) (by decide)

/-- C6: registry membership invariant — after processing any single event in
`Hub.run`'s loop (the only place the active set is touched in the model, as
in the source), a client is in the active set exactly when the event
registered it, or it was already a member and the event did not remove it
(by explicit unregister or broadcast-overflow teardown); and the active set
remains duplicate-free. -/
theorem registry_membership_invariant (s : HubState) (e : HEvent) (c : ClientId)
    (hnd : s.active.Nodup) :
    (c ∈ (hubStep s e).active ↔
      addsClient e c ∨ (c ∈ s.active ∧ ¬ removesClient s e c)) ∧
      (hubStep s e).active.Nodup := by
  cases e with
  | register d =>
    have hinj : addsClient (.register d) c ↔ d = c := by
      simp [addsClient]
    have hrem : ¬ removesClient s (.register d) c := fun h => h
    simp only [hubStep, regStep, hinj]
    by_cases hd : d ∈ s.active
    · rw [if_pos hd]
      refine ⟨?_, hnd⟩
      constructor
      · intro h
        exact Or.inr ⟨h, hrem⟩
      · rintro (rfl | ⟨h, _⟩)
        · exact hd
        · exact h
    · rw [if_neg hd]
      refine ⟨?_, ?_⟩
      · rw [List.mem_append, List.mem_singleton]
        constructor
        · rintro (h | rfl)
          · exact Or.inr ⟨h, hrem⟩
          · exact Or.inl rfl
        · rintro (rfl | ⟨h, _⟩)
          · exact Or.inr rfl
          · exact Or.inl h
      · simp [List.nodup_append, hnd, hd]
  | unregister d =>
    have hrem : removesClient s (.unregister d) c ↔ c = d := Iff.rfl
    have hadd : ¬ addsClient (.unregister d) c := by simp [addsClient]
    simp only [hubStep]
    by_cases hd : d ∈ s.active
    · simp only [unregStep, if_pos hd]
      refine ⟨?_, hnd.erase d⟩
      by_cases hcd : c = d
      · subst hcd
        simp [hnd.not_mem_erase, hadd, hrem]
      · rw [List.mem_erase_of_ne hcd]
        simp [hadd, hrem, hcd]
    · simp only [unregStep, if_neg hd]
      refine ⟨?_, hnd⟩
      by_cases hcd : c = d
      · subst hcd
        simp [hadd, hrem, hd]
      · simp [hadd, hrem, hcd]
  | broadcast m =>
    have h : c ∈ (hubStep s (.broadcast m)).active ↔
        c ∈ s.active ∧ ¬(c ∈ s.active ∧ mailboxCap ≤ (s.mbox c).queue.length) :=
      foldl_bStep_active_mem m s.active s c hnd hnd
    refine ⟨?_, foldl_bStep_active_nodup m s.active s hnd⟩
    rw [h]
    have hadd : ¬ addsClient (.broadcast m) c := by simp [addsClient]
    have hrem : removesClient s (.broadcast m) c ↔
        mailboxCap ≤ (s.mbox c).queue.length := Iff.rfl
    constructor
    · rintro ⟨h1, h2⟩
      exact Or.inr ⟨h1, fun hf => h2 ⟨h1, hrem.mp hf⟩⟩
    · rintro (habs | ⟨h1, h2⟩)
      · exact absurd habs hadd
      · exact ⟨h1, by rintro ⟨_, hf⟩; exact h2 (hrem.mpr hf)⟩

theorem registry_membership_witness :
    (0 ∈ (hubStep sOne (.unregister 0)).active ↔
      addsClient (.unregister 0) 0 ∨
        (0 ∈ sOne.active ∧ ¬ removesClient sOne (.unregister 0) 0)) ∧
      (hubStep sOne (.unregister 0)).active.Nodup :=
  registry_membership_invariant sOne (.unregister 0) 0 (by decide)

/-! ### Coalescing (writePump batching) -/

/-- The frame built when the write loop wakes with mailbox contents `ps`:
the first payload is written, then each further queued payload is written
preceded by the separator. -/
def drainFrame : List Payload → Payload
  | [] => []
  | m :: qs => coalesceFrame m qs

theorem foldl_coalesce (qs : List Payload) :
    ∀ a : Payload, qs.foldl (fun acc q => acc ++ msgSep :: q) a =
      a ++ (qs.map (fun q => msgSep :: q)).flatten := by
  induction qs with
  | nil => intro a; simp
  | cons q rest ih =>
    intro a
    rw [List.foldl_cons, ih]
    simp [List.append_assoc]

theorem intercalate_cons_sep (qs : List Payload) :
    ∀ m : Payload, [msgSep].intercalate (m :: qs) =
      m ++ (qs.map (fun q => msgSep :: q)).flatten := by
  induction qs with
  | nil => intro m; simp [List.intercalate]
  | cons q rest ih =>
    intro m
    have h2 := ih q
    simp only [List.intercalate, List.intersperse_cons_cons, List.flatten_cons] at h2 ⊢
    rw [h2]
    simp

theorem coalesceFrame_eq_intercalate (m : Payload) (qs : List Payload) :
    coalesceFrame m qs = [msgSep].intercalate (m :: qs) := by
  rw [intercalate_cons_sep]
  simp only [coalesceFrame]
  rw [foldl_coalesce]

/-- C4, counterexample to the claim as stated: a single mailbox payload that
itself contains the separator byte produces a frame whose split does not
recover the payload list — splitting is only an inverse of the join when
payloads are separator-free. -/
theorem coalesce_split_counterexample :
    (drainFrame [[97, msgSep, 98]]).splitOn msgSep ≠ [[97, msgSep, 98]] := by
  decide

/-- C4 (amended): when the write loop wakes with mailbox contents
P1, ..., Pk (k ≥ 1), it emits them as a single frame — the payloads joined
with the "\n" separator in mailbox (arrival) order — and, provided no payload
contains the separator byte, splitting the frame on the separator yields
exactly P1, ..., Pk in that order. -/
theorem drainFrame_split_spec (ps : List Payload) (hne : ps ≠ [])
    (hsep : ∀ q ∈ ps, msgSep ∉ q) :
    drainFrame ps = [msgSep].intercalate ps ∧
      (drainFrame ps).splitOn msgSep = ps := by
  match ps, hne with
  | m :: qs, _ =>
    have h1 : drainFrame (m :: qs) = [msgSep].intercalate (m :: qs) :=
      coalesceFrame_eq_intercalate m qs
    exact ⟨h1, by rw [h1]; exact List.splitOn_intercalate (m :: qs) msgSep hsep (by simp)⟩

theorem drainFrame_split_witness :
    drainFrame [[80], [81], [82]] = [msgSep].intercalate [[80], [81], [82]] ∧
      (drainFrame [[80], [81], [82]]).splitOn msgSep = [[80], [81], [82]] :=
  drainFrame_split_spec [[80], [81], [82]] (by decide) (by decide)

/-! ### Read limit -/

theorem readLoop_eq_takeWhile (msgs : List Payload) :
    readLoop msgs = msgs.takeWhile (fun m => decide (m.length ≤ maxMessageSize)) := by
  induction msgs with
  | nil => rfl
  | cons m rest ih =>
    by_cases h : m.length ≤ maxMessageSize
    · simp [readLoop, List.takeWhile_cons, h, ih]
    · simp [readLoop, List.takeWhile_cons, h]

theorem readLoop_length_le (msgs : List Payload) :
    ∀ p ∈ readLoop msgs, p.length ≤ maxMessageSize := by
  induction msgs with
  | nil => intro p hp; cases hp
  | cons m rest ih =>
    intro p hp
    simp only [readLoop] at hp
    split at hp
    · rcases List.mem_cons.mp hp with rfl | h
      · assumption
      · exact ih p h
    · cases hp

/-- C5: the read loop enforces the 512-byte inbound limit — the payloads
forwarded to the Hub's broadcast intake are exactly the longest prefix of the
inbound frames within the limit (so a frame exceeding 512 bytes makes the
read fail and nothing further is forwarded), an oversized payload is never
forwarded, and the loop's deferred exit path unregisters the client and
closes the physical stream. -/
theorem readPump_limit_spec (msgs : List Payload) (p : Payload) :
    (readPump msgs).broadcasts =
        msgs.takeWhile (fun m => decide (m.length ≤ maxMessageSize)) ∧
      (readPump msgs).unregistered = true ∧
      (readPump msgs).connClosed = true ∧
      (maxMessageSize < p.length → p ∉ (readPump msgs).broadcasts) := by
  refine ⟨readLoop_eq_takeWhile msgs, rfl, rfl, ?_⟩
  intro hlen hmem
  exact absurd (readLoop_length_le msgs p hmem) (Nat.not_le.mpr hlen)

theorem readPump_limit_witness :
    (readPump [[1], List.replicate 513 0, [2]]).unregistered = true ∧
      (readPump [[1], List.replicate 513 0, [2]]).connClosed = true ∧
      List.replicate 513 0 ∉ (readPump [[1], List.replicate 513 0, [2]]).broadcasts := by
  have h := readPump_limit_spec [[1], List.replicate 513 0, [2]] (List.replicate 513 0)
  exact ⟨h.2.1, h.2.2.1, h.2.2.2 (by decide)⟩

/-- C7: exit paths of the write loop — observing the mailbox-closed signal
sends a graceful close frame and terminates with no further frames; a failed
payload write and a failed keepalive ping also terminate; and the deferred
cleanup closes the physical stream (and stops the ticker) exactly when the
loop exits, whichever branch caused the exit. -/
theorem writePump_exit_paths (rest : List WriteEvent) (m : Payload) (qs : List Payload)
    (es : List WriteEvent) :
    writePump (.closedSignal :: rest) =
      { frames := [], sentClose := true, exited := true,
        tickerStopped := true, connClosed := true } ∧
      writePump (.deliver m qs false :: rest) =
        { frames := [], sentClose := false, exited := true,
          tickerStopped := true, connClosed := true } ∧
      writePump (.tick false :: rest) =
        { frames := [], sentClose := false, exited := true,
          tickerStopped := true, connClosed := true } ∧
      (writePump es).connClosed = (writeLoop es).exited := by
  refine ⟨rfl, ?_, ?_, rfl⟩ <;> simp [writePump, writeLoop]

/-! ### Keepalive timing -/

theorem le_foldl_max (l : List Nat) : ∀ a : Nat, a ≤ l.foldl max a := by
  induction l with
  | nil => intro a; exact Nat.le_refl a
  | cons x t ih =>
    intro a
    exact Nat.le_trans (Nat.le_max_left a x) (ih (max a x))

theorem mem_le_foldl_max (l : List Nat) : ∀ (a x : Nat), x ∈ l → x ≤ l.foldl max a := by
  induction l with
  | nil => intro a x hx; cases hx
  | cons y t ih =>
    intro a x hx
    rcases List.mem_cons.mp hx with rfl | h
    · exact Nat.le_trans (Nat.le_max_right a x) (le_foldl_max t (max a x))
    · exact ih (max a y) x h

theorem foldl_max_le (l : List Nat) : ∀ a B : Nat, a ≤ B → (∀ x ∈ l, x ≤ B) →
    l.foldl max a ≤ B := by
  induction l with
  | nil => intro a B ha _; exact ha
  | cons y t ih =>
    intro a B ha h
    exact ih (max a y) B (Nat.max_le.mpr ⟨ha, h y (List.mem_cons_self y t)⟩)
      (fun x hx => h x (List.mem_cons_of_mem y hx))

theorem pingSchedule_succ (n : Nat) :
    pingSchedule (n + 1) = pingSchedule n ++ [pingPeriod * (n + 1)] := by
  simp [pingSchedule, List.range_succ]

theorem lastLiveness_append (ps : List Nat) (p T : Nat) :
    lastLiveness ps T ≤ lastLiveness (ps ++ [p]) T := by
  simp only [lastLiveness, List.filter_append]
  rw [List.foldl_append]
  exact le_foldl_max _ _

theorem liveness_no_timeout (n T : Nat) (h : T ≤ pingPeriod * n + pongWait) :
    T ≤ readDeadlineAt (pingSchedule n) T := by
  induction n with
  | zero => simpa [readDeadlineAt, lastLiveness, pingSchedule, pongWait] using h
  | succ k ih =>
    by_cases hk : T ≤ pingPeriod * k + pongWait
    · have h1 := ih hk
      have h2 := lastLiveness_append (pingSchedule k) (pingPeriod * (k + 1)) T
      rw [← pingSchedule_succ] at h2
      simp only [readDeadlineAt] at h1 ⊢
      omega
    · have hp : pingPeriod * (k + 1) ≤ T := by
        simp only [pingPeriod, pongWait] at hk ⊢
        omega
      have hmem : pingPeriod * (k + 1) ∈
          (pingSchedule (k + 1)).filter (fun t => decide (t ≤ T)) := by
        rw [List.mem_filter]
        refine ⟨?_, by simpa using hp⟩
        rw [pingSchedule_succ]
        exact List.mem_append_right _ (List.mem_singleton.mpr rfl)
      have h3 : pingPeriod * (k + 1) ≤ lastLiveness (pingSchedule (k + 1)) T :=
        mem_le_foldl_max _ 0 _ hmem
      simp only [readDeadlineAt, pingPeriod, pongWait] at h3 h ⊢
      omega

theorem timeout_after (n T : Nat) (h : pingPeriod * n + pongWait < T) :
    readDeadlineAt (pingSchedule n) T < T := by
  have hb : lastLiveness (pingSchedule n) T ≤ pingPeriod * n := by
    rw [lastLiveness]
    apply foldl_max_le _ _ _ (Nat.zero_le _)
    intro x hx
    rw [List.mem_filter] at hx
    obtain ⟨hx1, _⟩ := hx
    simp only [pingSchedule, List.mem_map, List.mem_range] at hx1
    obtain ⟨i, hi, rfl⟩ := hx1
    exact Nat.mul_le_mul_left pingPeriod hi
  simp only [readDeadlineAt, pingPeriod, pongWait] at hb h ⊢
  omega

/-- C8: keepalive protocol — the write side's ping ticker period is 54 time
units (a failed ping send terminates the loop, per the write-loop theorem),
each pong resets the read deadline to 60 time units from receipt, a
connection whose peer has answered every ping is not timed out at any time
up to 60 units past the last answer, and once the peer stops answering the
connection is timed out at every time beyond that 60-unit window. -/
theorem keepalive_timing_spec (n T₁ T₂ : Nat) :
    pingPeriod = 54 ∧ pongWait = 60 ∧ (∀ t, pongHandler t = t + 60) ∧
      (T₁ ≤ pingPeriod * n + pongWait → timedOut (pingSchedule n) T₁ = false) ∧
      (pingPeriod * n + pongWait < T₂ → timedOut (pingSchedule n) T₂ = true) := by
  refine ⟨rfl, rfl, fun t => rfl, ?_, ?_⟩
  · intro h
    have h1 := liveness_no_timeout n T₁ h
    simp only [timedOut, decide_eq_false_iff_not]
    exact Nat.not_lt.mpr h1
  · intro h
    have h1 := timeout_after n T₂ h
    simp only [timedOut, decide_eq_true_eq]
    exact h1

theorem keepalive_timing_witness :
    timedOut (pingSchedule 2) 160 = false ∧ timedOut (pingSchedule 2) 200 = true ∧
      pongHandler 7 = 67 := by
  have h := keepalive_timing_spec 2 160 200
  exact ⟨h.2.2.2.1 (by decide), h.2.2.2.2 (by decide), h.2.2.1 7⟩

/-- C9: the static page handler checks the path before the method — any
request whose path is not "/" gets a not-found response regardless of method,
a request to "/" with a method other than GET gets method-not-allowed, and a
GET request to "/" gets the HTML page. -/
theorem serveHome_dispatch (path method : String) :
    (path ≠ "/" → serveHome path method = .notFound) ∧
      (path = "/" → method ≠ "GET" → serveHome path method = .methodNotAllowed) ∧
      serveHome "/" "GET" = .page := by
  refine ⟨?_, ?_, by simp [serveHome]⟩
  · intro h
    simp [serveHome, h]
  · intro hp hm
    subst hp
    simp [serveHome, hm]

theorem serveHome_dispatch_witness :
    serveHome "/chat" "POST" = .notFound ∧ serveHome "/" "POST" = .methodNotAllowed := by
  have h1 := serveHome_dispatch "/chat" "POST"
  have h2 := serveHome_dispatch "/" "POST"
  exact ⟨h1.1 (by decide), h2.2.1 rfl (by decide)⟩

end WebChat
